import Mathlib

/-!
Verification of the file discovery/exclusion engine and the tree composition
logic of `code2md.py`.

Paths are embedded as lists of name components relative to the base
directory. A filesystem subtree is the mutual inductive `Entry`/`EntryList`
below; mutual structural recursion over it keeps every definition computable
by the kernel. Python string operations are modelled over explicit character
lists; `str.lower()` is modelled on the ASCII range, which covers every
constant pattern and extension the program works with.
-/

set_option maxRecDepth 100000

namespace Code2md

/-- ASCII lower-casing of a single character, modelling Python `str.lower()`
on the ASCII range. -/
def lowerChar (c : Char) : Char :=
  if 65 ≤ c.toNat && c.toNat ≤ 90 then Char.ofNat (c.toNat + 32) else c

/-- Lower-case a string character by character (Python `s.lower()`). -/
def lowerStr (s : String) : String := ⟨s.data.map lowerChar⟩

/-- Does the first character list start with the second one?
Models Python `s.startswith(pat)` on the underlying characters. -/
def listStartsWith : List Char → List Char → Bool
  | _, [] => true
  | [], _ :: _ => false
  | a :: s, b :: pat => a == b && listStartsWith s pat

/-- Python `s.startswith(pat)`. -/
def strStartsWith (s pat : String) : Bool := listStartsWith s.data pat.data

/-- Python `s.endswith(pat)`. -/
def strEndsWith (s pat : String) : Bool := listStartsWith s.data.reverse pat.data.reverse

/-- Python `s[1:]`: drop the first character. -/
def strDropOne (s : String) : String := ⟨s.data.drop 1⟩

/-- Does `pat` occur as a contiguous run inside the character list?
Models Python substring membership `pat in s`. -/
def listHasSub (pat : List Char) : List Char → Bool
  | [] => pat.isEmpty
  | c :: rest => listStartsWith (c :: rest) pat || listHasSub pat rest

/-- Python `pat in s` for strings: `pat` occurs contiguously inside `s`. -/
def strContainsSub (s pat : String) : Bool := listHasSub pat.data s.data

/-- Join path components with the POSIX separator (Python `str(PurePath)`
for a nonempty relative path). -/
def joinParts : List String → String
  | [] => ""
  | [p] => p
  | p :: ps => p ++ "/" ++ joinParts ps

/-- Python `str(path.relative_to(base))`: the separator-joined components,
and `"."` when the path equals the base (empty component list). -/
def pyRelStr (relParts : List String) : String :=
  if relParts.isEmpty then "." else joinParts relParts

/-- Python `PurePath.suffix` computed from the final name component: the
substring from the last dot on, unless that dot is the first or the last
character of the name, in which case the suffix is empty. -/
def pySuffix (name : String) : String :=
  let cs := name.data
  let rcs := cs.reverse
  match rcs.findIdx? (· == '.') with
  | none => ""
  | some j => if 0 < j && j + 1 < cs.length then ⟨(rcs.take (j + 1)).reverse⟩ else ""

/-- Body of the `for exclude in excludes` loop of `should_exclude`
(code2md.py lines 228-238): wildcard patterns test only the final name's
suffix; other patterns test component/final-name equality and fall back to
substring containment in the relative path string. -/
def matchOne (relParts : List String) (pathName : String) (exclude : String) : Bool :=
  if strStartsWith exclude "*" then strEndsWith pathName (strDropOne exclude)
  else if relParts.contains exclude || pathName == exclude then true
  else strContainsSub (pyRelStr relParts) exclude

/-- `should_exclude(path, excludes, base_path)` (code2md.py lines 222-240).
The path argument is embedded as its component list relative to `base_path`
together with its final name `path.name` (which, for a path equal to the
base, is the base directory's own name while the component list is empty).
The loop returns `True` at the first matching pattern and `False` after
exhausting the list. -/
def should_exclude (relParts : List String) (pathName : String) : List String → Bool
  | [] => false
  | exclude :: rest =>
      if matchOne relParts pathName exclude then true
      else should_exclude relParts pathName rest

theorem should_exclude_eq_any (relParts : List String) (pathName : String) :
    ∀ excludes : List String,
      should_exclude relParts pathName excludes = excludes.any (matchOne relParts pathName)
  | [] => rfl
  | e :: rest => by
      rw [should_exclude, List.any_cons, should_exclude_eq_any relParts pathName rest]
      by_cases h : matchOne relParts pathName e = true
      · simp [h]
      · simp [Bool.not_eq_true] at h
        simp [h]

/-- claim C4: `should_exclude(path, excludes, basePath)` returns true if and only
if at least one pattern in the list matches the path under the three-kind
dispatch (wildcard by final-name suffix; otherwise equality with a path
component or the final name, falling back to substring of the relative path
string), and the result is independent of the order of the pattern list. -/
theorem claim_C4 (relParts : List String) (pathName : String) (excludes : List String) :
    (should_exclude relParts pathName excludes = true ↔
      ∃ e ∈ excludes, matchOne relParts pathName e = true) ∧
    (∀ excludes' : List String, excludes.Perm excludes' →
      should_exclude relParts pathName excludes' =
        should_exclude relParts pathName excludes) := by
  constructor
  · rw [should_exclude_eq_any]
    exact List.any_eq_true
  · intro excludes' hp
    rw [should_exclude_eq_any, should_exclude_eq_any]
    rcases h : (excludes.any (matchOne relParts pathName)) with _ | _
    · rw [List.any_eq_false] at h ⊢
      intro x hx
      exact h x (hp.symm.subset hx)
    · rw [List.any_eq_true] at h ⊢
      rcases h with ⟨x, hx, hm⟩
      exact ⟨x, hp.subset hx, hm⟩

/-- witness for claim C4: a concrete two-pattern list and its transposition
give the same verdict. -/
theorem claim_C4_witness :
    (["b", "a"] : List String).Perm ["a", "b"] ∧
    should_exclude ["x"] "x" ["a", "b"] = should_exclude ["x"] "x" ["b", "a"] :=
  ⟨List.Perm.swap "a" "b" [], (claim_C4 ["x"] "x" ["b", "a"]).2 ["a", "b"] (List.Perm.swap "a" "b" [])⟩

/-- counterexample to claim C7: at a path equal to the base directory
(empty relative component list), a pattern equal to the base directory's own
final name is matched by the exact-name kind, not by the substring kind
(the pattern is not a substring of the relative path string "."), so
exclusion at the base is not restricted to substring matching. -/
theorem claim_C7_cx :
    should_exclude [] "proj" ["proj"] = true ∧
    strContainsSub (pyRelStr []) "proj" = false ∧
    strStartsWith "proj" "*" = false := by decide

/-- claim C7 (amended): for a path equal to the base (empty relative
component list), path-component matching never fires; a pattern matches
exactly when it is a wildcard whose suffix ends the base directory's own
name, or it equals that name, or it is a substring of the relative path
string ".". In particular an empty relative path does not vacuously make
every non-wildcard pattern match. -/
theorem claim_C7 (pathName : String) (excludes : List String) :
    should_exclude [] pathName excludes = true ↔
      ∃ e ∈ excludes,
        (if strStartsWith e "*" then strEndsWith pathName (strDropOne e)
         else pathName == e || strContainsSub "." e) = true := by
  rw [should_exclude_eq_any, List.any_eq_true]
  constructor
  · rintro ⟨e, he, hm⟩
    refine ⟨e, he, ?_⟩
    rw [matchOne] at hm
    by_cases hw : strStartsWith e "*" = true
    · rw [if_pos hw] at hm ⊢
      exact hm
    · rw [Bool.not_eq_true] at hw
      rw [hw] at hm ⊢
      simp only [Bool.false_eq_true, if_false] at hm ⊢
      simp only [List.contains, List.elem_nil, Bool.false_or] at hm
      by_cases hn : (pathName == e) = true
      · rw [hn, Bool.true_or]
      · rw [Bool.not_eq_true] at hn
        rw [hn] at hm
        simp only [Bool.false_eq_true, if_false] at hm
        rw [hn, Bool.false_or]
        exact hm
  · rintro ⟨e, he, hm⟩
    refine ⟨e, he, ?_⟩
    rw [matchOne]
    by_cases hw : strStartsWith e "*" = true
    · rw [if_pos hw] at hm ⊢
      exact hm
    · rw [Bool.not_eq_true] at hw
      rw [hw] at hm ⊢
      simp only [Bool.false_eq_true, if_false] at hm ⊢
      simp only [List.contains, List.elem_nil, Bool.false_or]
      by_cases hn : (pathName == e) = true
      · rw [hn]
        simp
      · rw [Bool.not_eq_true] at hn
        rw [hn] at hm
        rw [hn]
        rw [Bool.false_or] at hm
        simp only [Bool.false_eq_true, if_false]
        exact hm

/-- witness for claim C7: at the base itself, a wildcard pattern matching the
base directory's own name fires. -/
theorem claim_C7_witness :
    should_exclude [] "proj" ["*oj"] = true :=
  (claim_C7 "proj" ["*oj"]).mpr ⟨"*oj", by decide, by decide⟩

/-- claim C8: for a pattern beginning with `*`, only the path's final name is
inspected: the single-pattern test equals the final-name suffix test, both at
the level of one pattern and of `should_exclude` with that one pattern, so
ancestor components and the relative path string are never consulted. -/
theorem claim_C8 (relParts : List String) (pathName e : String)
    (h : strStartsWith e "*" = true) :
    matchOne relParts pathName e = strEndsWith pathName (strDropOne e) ∧
    should_exclude relParts pathName [e] = strEndsWith pathName (strDropOne e) := by
  have h1 : matchOne relParts pathName e = strEndsWith pathName (strDropOne e) := by
    rw [matchOne, if_pos h]
  refine ⟨h1, ?_⟩
  rw [should_exclude, h1]
  by_cases h2 : strEndsWith pathName (strDropOne e) = true
  · rw [h2, if_pos rfl]
  · rw [Bool.not_eq_true] at h2
    rw [h2]
    simp only [Bool.false_eq_true, if_false]
    rfl

/-- witness for claim C8: a file inside a directory that matches `*.log` is
not itself matched, because only the final name is consulted. -/
theorem claim_C8_witness :
    strStartsWith "*.log" "*" = true ∧
    should_exclude ["x.log", "f.py"] "f.py" ["*.log"] = false :=
  ⟨by decide, by
    rw [(claim_C8 ["x.log", "f.py"] "f.py" "*.log" (by decide)).2]
    decide⟩

theorem listStartsWith_nil (s : List Char) : listStartsWith s [] = true := by
  cases s <;> rfl

theorem listHasSub_nilPat : ∀ s, listHasSub [] s = true
  | [] => rfl
  | c :: rest => by
      rw [listHasSub, listStartsWith_nil]
      rfl

theorem matchOne_star (relParts : List String) (pathName : String) :
    matchOne relParts pathName "*" = true := by
  rw [matchOne, if_pos (by decide : strStartsWith "*" "*" = true)]
  exact listStartsWith_nil _

theorem matchOne_empty (relParts : List String) (pathName : String) :
    matchOne relParts pathName "" = true := by
  rw [matchOne, if_neg (by decide : ¬strStartsWith "" "*" = true)]
  by_cases h : (relParts.contains "" || pathName == "") = true
  · rw [if_pos h]
  · rw [if_neg h, strContainsSub]
    exact listHasSub_nilPat _

theorem should_exclude_of_matchOne {relParts : List String} {pathName e : String}
    {excludes : List String} (he : e ∈ excludes)
    (hm : matchOne relParts pathName e = true) :
    should_exclude relParts pathName excludes = true := by
  rw [should_exclude_eq_any, List.any_eq_true]
  exact ⟨e, he, hm⟩

mutual
/-- One node of the filesystem subtree below the base directory: a file, or a
directory with its children in listing order. -/
inductive Entry where
  | file (name : String)
  | dir (name : String) (children : EntryList)

/-- A directory listing, as a mutual inductive so that all traversals are
structural. -/
inductive EntryList where
  | nil
  | cons (e : Entry) (rest : EntryList)
end

/-- Build an `EntryList` from a plain list. -/
def ofList : List Entry → EntryList
  | [] => EntryList.nil
  | e :: rest => EntryList.cons e (ofList rest)

/-- The entry's final name component (`path.name`). -/
def entryName : Entry → String
  | Entry.file n => n
  | Entry.dir n _ => n

/-- Python `path.is_dir()`. -/
def entryIsDir : Entry → Bool
  | Entry.file _ => false
  | Entry.dir _ _ => true

mutual
/-- Mutual induction over entries and listings. -/
theorem entryInd (P : Entry → Prop) (Q : EntryList → Prop)
    (hfile : ∀ n, P (Entry.file n))
    (hdir : ∀ n cs, Q cs → P (Entry.dir n cs))
    (hnil : Q EntryList.nil)
    (hcons : ∀ e rest, P e → Q rest → Q (EntryList.cons e rest)) : ∀ e, P e
  | Entry.file n => hfile n
  | Entry.dir n cs => hdir n cs (entryListInd P Q hfile hdir hnil hcons cs)

/-- Mutual induction over listings and entries. -/
theorem entryListInd (P : Entry → Prop) (Q : EntryList → Prop)
    (hfile : ∀ n, P (Entry.file n))
    (hdir : ∀ n cs, Q cs → P (Entry.dir n cs))
    (hnil : Q EntryList.nil)
    (hcons : ∀ e rest, P e → Q rest → Q (EntryList.cons e rest)) : ∀ l, Q l
  | EntryList.nil => hnil
  | EntryList.cons e rest =>
      hcons e rest (entryInd P Q hfile hdir hnil hcons e)
        (entryListInd P Q hfile hdir hnil hcons rest)
end

/-- Induction over a listing that does not descend into directories. -/
theorem elInd (Q : EntryList → Prop) (hnil : Q EntryList.nil)
    (hcons : ∀ e rest, Q rest → Q (EntryList.cons e rest)) : ∀ l, Q l
  | EntryList.nil => hnil
  | EntryList.cons e rest => hcons e rest (elInd Q hnil hcons rest)

/-- Stable sorted insertion: the element is placed in front of the first list
element it compares less-or-equal to, reproducing the stable ordering of
Python `sorted`/`list.sort`. -/
def pyInsert {α : Type u} (le : α → α → Bool) (x : α) : List α → List α
  | [] => [x]
  | y :: ys => if le x y then x :: y :: ys else y :: pyInsert le x ys

/-- Stable sort by a boolean comparison (Python `sorted`/`list.sort`). -/
def pySort {α : Type u} (le : α → α → Bool) : List α → List α
  | [] => []
  | x :: xs => pyInsert le x (pySort le xs)

theorem mem_pyInsert {α : Type u} (le : α → α → Bool) (x a : α) :
    ∀ l, a ∈ pyInsert le x l ↔ a = x ∨ a ∈ l
  | [] => by simp [pyInsert]
  | y :: ys => by
      rw [pyInsert]
      by_cases h : le x y = true
      · simp only [h, if_true]
        simp [List.mem_cons]
      · rw [Bool.not_eq_true] at h
        simp only [h, Bool.false_eq_true, if_false]
        rw [List.mem_cons, List.mem_cons, mem_pyInsert le x a ys]
        tauto

theorem mem_pySort {α : Type u} (le : α → α → Bool) (a : α) :
    ∀ l, a ∈ pySort le l ↔ a ∈ l
  | [] => Iff.rfl
  | x :: xs => by
      rw [pySort, mem_pyInsert le x a (pySort le xs), mem_pySort le a xs, List.mem_cons]

theorem pairwise_pyInsert {α : Type u} (le : α → α → Bool)
    (htot : ∀ a b, le a b = true ∨ le b a = true)
    (htr : ∀ a b c, le a b = true → le b c = true → le a c = true)
    (x : α) : ∀ l, l.Pairwise (fun a b => le a b = true) →
      (pyInsert le x l).Pairwise (fun a b => le a b = true)
  | [], _ => by simp [pyInsert]
  | y :: ys, hp => by
      rcases List.pairwise_cons.mp hp with ⟨hy, hys⟩
      rw [pyInsert]
      by_cases h : le x y = true
      · rw [if_pos h]
        refine List.pairwise_cons.mpr ⟨?_, hp⟩
        intro z hz
        rcases List.mem_cons.mp hz with rfl | hz
        · exact h
        · exact htr x y z h (hy z hz)
      · have hyx : le y x = true := (htot x y).resolve_left h
        rw [Bool.not_eq_true] at h
        rw [h]
        simp only [Bool.false_eq_true, if_false]
        refine List.pairwise_cons.mpr ⟨?_, pairwise_pyInsert le htot htr x ys hys⟩
        intro z hz
        rcases (mem_pyInsert le x z ys).mp hz with rfl | hz
        · exact hyx
        · exact hy z hz

theorem pairwise_pySort {α : Type u} (le : α → α → Bool)
    (htot : ∀ a b, le a b = true ∨ le b a = true)
    (htr : ∀ a b c, le a b = true → le b c = true → le a c = true) :
    ∀ l : List α, (pySort le l).Pairwise (fun a b => le a b = true)
  | [] => List.Pairwise.nil
  | x :: xs =>
      pairwise_pyInsert le htot htr x (pySort le xs) (pairwise_pySort le htot htr xs)

/-- Code-point lexicographic less-or-equal on character lists, modelling
Python string comparison. -/
def lexLe : List Char → List Char → Bool
  | [], _ => true
  | _ :: _, [] => false
  | a :: s, b :: t =>
      if a.toNat < b.toNat then true
      else if b.toNat < a.toNat then false
      else lexLe s t

theorem lexLe_total : ∀ a b : List Char, lexLe a b = true ∨ lexLe b a = true
  | [], _ => Or.inl rfl
  | _ :: _, [] => Or.inr rfl
  | a :: s, b :: t => by
      rw [lexLe, lexLe]
      rcases Nat.lt_trichotomy a.toNat b.toNat with h | h | h
      · left
        rw [if_pos h]
      · rw [if_neg (by omega), if_neg (by omega), if_neg (by omega), if_neg (by omega)]
        exact lexLe_total s t
      · right
        rw [if_pos h]

theorem lexLe_trans : ∀ a b c : List Char,
    lexLe a b = true → lexLe b c = true → lexLe a c = true
  | [], _, _, _, _ => rfl
  | _ :: _, [], _, h1, _ => absurd h1 (by rw [lexLe]; exact Bool.false_ne_true)
  | _ :: _, _ :: _, [], _, h2 => absurd h2 (by rw [lexLe]; exact Bool.false_ne_true)
  | a :: s, b :: t, c :: u, h1, h2 => by
      rw [lexLe] at h1 h2 ⊢
      by_cases hab : a.toNat < b.toNat
      · rw [if_pos hab] at h1
        by_cases hbc : b.toNat < c.toNat
        · rw [if_pos (by omega)]
        · by_cases hcb : c.toNat < b.toNat
          · rw [if_neg hbc, if_pos hcb] at h2
            exact absurd h2 Bool.false_ne_true
          · rw [if_pos (by omega)]
      · by_cases hba : b.toNat < a.toNat
        · rw [if_neg hab, if_pos hba] at h1
          exact absurd h1 Bool.false_ne_true
        · rw [if_neg hab, if_neg hba] at h1
          by_cases hbc : b.toNat < c.toNat
          · rw [if_pos (by omega)]
          · by_cases hcb : c.toNat < b.toNat
            · rw [if_neg hbc, if_pos hcb] at h2
              exact absurd h2 Bool.false_ne_true
            · rw [if_neg hbc, if_neg hcb] at h2
              rw [if_neg (by omega), if_neg (by omega)]
              exact lexLe_trans s t u h1 h2

/-- Sort key comparison of `collect_files` (code2md.py line 272): compare the
lower-cased relative path strings code-point lexicographically, the path
separator taking part in the comparison. -/
def collectLe (a b : List String) : Bool :=
  lexLe (lowerStr (pyRelStr a)).data (lowerStr (pyRelStr b)).data

theorem collectLe_total (a b : List String) : collectLe a b = true ∨ collectLe b a = true :=
  lexLe_total _ _

theorem collectLe_trans (a b c : List String) :
    collectLe a b = true → collectLe b c = true → collectLe a c = true :=
  lexLe_trans _ _ _

/-- The `for filename in filenames` body of one `os.walk` step in
`collect_files` (code2md.py lines 260-269): a file of the current directory
is kept unless excluded, and only when its lower-cased suffix belongs to the
extension set. `pre` is the current directory's path relative to the base. -/
def walkFiles (extensions excludes : List String) (pre : List String) :
    EntryList → List (List String)
  | EntryList.nil => []
  | EntryList.cons (Entry.file n) rest =>
      (if should_exclude (pre ++ [n]) n excludes then []
       else if extensions.contains (lowerStr (pySuffix n)) then [pre ++ [n]] else [])
      ++ walkFiles extensions excludes pre rest
  | EntryList.cons (Entry.dir _ _) rest => walkFiles extensions excludes pre rest

mutual
/-- Descent of `os.walk` into one child after the in-place pruning
`dirs[:] = [d for d in dirs if not should_exclude(...)]` (code2md.py lines
251-258): an excluded directory's subtree is never visited; a surviving
directory contributes its own files and then those of its subdirectories. -/
def walkDirE (extensions excludes : List String) (pre : List String) :
    Entry → List (List String)
  | Entry.file _ => []
  | Entry.dir n cs =>
      if should_exclude (pre ++ [n]) n excludes then []
      else walkFiles extensions excludes (pre ++ [n]) cs
           ++ walkSub extensions excludes (pre ++ [n]) cs

/-- Fold of `walkDirE` over a directory listing. -/
def walkSub (extensions excludes : List String) (pre : List String) :
    EntryList → List (List String)
  | EntryList.nil => []
  | EntryList.cons e rest =>
      walkDirE extensions excludes pre e ++ walkSub extensions excludes pre rest
end

/-- `collect_files(base_path, extensions, excludes)` (code2md.py lines
243-273): gather all surviving files top-down starting from the base
directory's children, then sort by the lower-cased relative path string. -/
def collect_files (extensions excludes : List String) (entries : EntryList) :
    List (List String) :=
  pySort collectLe
    (walkFiles extensions excludes [] entries ++ walkSub extensions excludes [] entries)

/-- claim C9: the pattern `*` and the empty-string pattern each match every
path, and a pattern list containing either makes `collect_files` return the
empty list. -/
theorem claim_C9 (excludes : List String) (h : "*" ∈ excludes ∨ "" ∈ excludes) :
    (∀ relParts pathName, should_exclude relParts pathName excludes = true) ∧
    (∀ extensions entries, collect_files extensions excludes entries = []) := by
  have hall : ∀ relParts pathName, should_exclude relParts pathName excludes = true := by
    intro relParts pathName
    rcases h with h | h
    · exact should_exclude_of_matchOne h (matchOne_star relParts pathName)
    · exact should_exclude_of_matchOne h (matchOne_empty relParts pathName)
  refine ⟨hall, ?_⟩
  intro extensions entries
  have hfl : ∀ l pre, walkFiles extensions excludes pre l = [] := by
    intro l
    refine elInd (fun l => ∀ pre, walkFiles extensions excludes pre l = [])
      (fun _ => rfl) ?_ l
    intro e rest ih pre
    cases e with
    | file n =>
        rw [walkFiles, hall (pre ++ [n]) n, if_pos rfl, List.nil_append]
        exact ih pre
    | dir n cs =>
        rw [walkFiles]
        exact ih pre
  have hsl : ∀ l pre, walkSub extensions excludes pre l = [] := by
    intro l
    refine entryListInd (fun e => ∀ pre, walkDirE extensions excludes pre e = [])
      (fun l => ∀ pre, walkSub extensions excludes pre l = []) ?_ ?_ ?_ ?_ l
    · intro n pre
      rfl
    · intro n cs _ pre
      rw [walkDirE, hall (pre ++ [n]) n, if_pos rfl]
    · intro pre
      rfl
    · intro e rest ihP ihQ pre
      rw [walkSub, ihP pre, ihQ pre, List.nil_append]
  unfold collect_files
  rw [hfl entries [], hsl entries []]
  rfl

/-- witness for claim C9: with the single pattern `*`, a small tree collects
to the empty list. -/
theorem claim_C9_witness :
    collect_files [".py"] ["*"]
      (ofList [Entry.file "a.py", Entry.dir "d" (ofList [Entry.file "b.py"])]) = [] :=
  (claim_C9 ["*"] (Or.inl (by decide))).2 [".py"]
    (ofList [Entry.file "a.py", Entry.dir "d" (ofList [Entry.file "b.py"])])

/-- claim C6: the list returned by `collect_files` is pairwise sorted
ascending under the lower-cased relative-path-string comparison (code-point
lexicographic with the separator taking part), and on the spec's example tree
the subdirectory files interleave with the base directory's own files. -/
theorem claim_C6 (extensions excludes : List String) (entries : EntryList) :
    (collect_files extensions excludes entries).Pairwise
      (fun a b => collectLe a b = true) ∧
    collect_files [".py"] []
        (ofList [Entry.dir "b" (ofList [Entry.file "a.py"]), Entry.file "a.py",
                 Entry.dir "B" (ofList [Entry.file "z.py"])]) =
      [["a.py"], ["b", "a.py"], ["B", "z.py"]] := by
  constructor
  · unfold collect_files
    exact pairwise_pySort collectLe collectLe_total collectLe_trans _
  · decide

mutual
/-- Python `item.rglob("*")` restricted to files (code2md.py line 304): all
transitive descendant file paths of an entry, each including the entry's own
name, so they are relative to the entry's parent directory. -/
def descFilesE : Entry → List (List String)
  | Entry.file n => [[n]]
  | Entry.dir n cs => (descFilesL cs).map (fun p => n :: p)

/-- Fold of `descFilesE` over a directory listing. -/
def descFilesL : EntryList → List (List String)
  | EntryList.nil => []
  | EntryList.cons e rest => descFilesE e ++ descFilesL rest
end

/-- The `has_relevant` check of `generate_tree` (code2md.py lines 302-306):
does some transitive descendant file of the directory survive the exclusion
matcher (evaluated against the call's exclusion base, here the relative path
prefix `relBase`) and carry a suffix in the extension set? -/
def has_relevant (extensions excludes : List String) (relBase : List String)
    (item : Entry) : Bool :=
  (descFilesE item).any fun p =>
    !should_exclude (relBase ++ p) (p.getLastD "") excludes &&
    extensions.contains (lowerStr (pySuffix (p.getLastD "")))

/-- Sort key of `generate_tree` (code2md.py line 285): directories first,
then case-insensitive name, as the tuple `(not is_dir, name.lower())`. -/
def treeLe (a b : Entry) : Bool :=
  if entryIsDir a == entryIsDir b then
    lexLe (lowerStr (entryName a)).data (lowerStr (entryName b)).data
  else entryIsDir a

/-- Pair each element with the `is_last` flag of the
`for i, item in enumerate(filtered_items)` loop (code2md.py lines 296-297). -/
def markLast {α : Type u} : List α → List (α × Bool)
  | [] => []
  | [x] => [(x, true)]
  | x :: y :: rest => (x, false) :: markLast (y :: rest)

/-- The loop body of `generate_tree` (code2md.py lines 296-316) for one kept
child, together with its already-computed subtree rendering `sub`: a file
child becomes one line; a directory child becomes its line followed by its
subtree under the extended prefix, but only when `has_relevant` holds, and
nothing at all otherwise. -/
def renderItem (extensions excludes : List String) (relBase : List String) (pfx : String) :
    (Entry × (String → List String)) × Bool → List String
  | ((Entry.file n, _), isLast) =>
      [pfx ++ (if isLast then "└── " else "├── ") ++ n]
  | ((Entry.dir n cs, sub), isLast) =>
      if has_relevant extensions excludes relBase (Entry.dir n cs) then
        (pfx ++ (if isLast then "└── " else "├── ") ++ n ++ "/") ::
        sub (pfx ++ (if isLast then "    " else "│   "))
      else []

/-- The body of one `generate_tree` invocation (code2md.py lines 283-318)
over the directory's children paired with their subtree renderings: sort
(directories first, then case-insensitive name), filter by the exclusion
matcher and the extension set, then render each kept child with its
`is_last` flag. -/
def assembleLevel (extensions excludes : List String) (relBase : List String)
    (pfx : String) (pairs : List (Entry × (String → List String))) : List String :=
  ((markLast ((pySort (fun a b => treeLe a.1 b.1) pairs).filter fun it =>
      !should_exclude (relBase ++ [entryName it.1]) (entryName it.1) excludes &&
      !(!entryIsDir it.1 &&
        !extensions.contains (lowerStr (pySuffix (entryName it.1)))))).map
    (renderItem extensions excludes relBase pfx)).flatten

mutual
/-- The recursive call `generate_tree(item, extensions, excludes, prefix +
extension)` of code2md.py line 313, computed structurally for every entry as
a function of the indentation prefix it will be placed under. Since the
prefix of a recursive call is never empty, the exclusion base of that call
is `base_path.parent`, so relative paths start at the directory's own name. -/
def renderE (extensions excludes : List String) : Entry → String → List String
  | Entry.file _, _ => []
  | Entry.dir n cs, pfx =>
      assembleLevel extensions excludes [n] pfx (renderL extensions excludes cs)

/-- Pair every child with its subtree rendering. -/
def renderL (extensions excludes : List String) :
    EntryList → List (Entry × (String → List String))
  | EntryList.nil => []
  | EntryList.cons e rest =>
      (e, renderE extensions excludes e) :: renderL extensions excludes rest
end

/-- `generate_tree(base_path, extensions, excludes, prefix)` (code2md.py
lines 276-318). The directory argument is embedded as its own name together
with its children; the exclusion base is `base_path.parent` when `prefix` is
nonempty (every recursive call) and `base_path` itself at the top-level
call, exactly as `base_path.parent if prefix else base_path` on line 290. -/
def generate_tree (extensions excludes : List String) (curName : String)
    (children : EntryList) (pfx : String) : List String :=
  assembleLevel extensions excludes (if pfx == "" then [] else [curName]) pfx
    (renderL extensions excludes children)

/-- The precomputed subtree rendering of a directory entry coincides with the
recursive `generate_tree` call whenever the prefix is nonempty, which holds
for every recursive call of the source. -/
theorem renderE_dir (extensions excludes : List String) (n : String) (cs : EntryList)
    (pfx : String) (h : (pfx == "") = false) :
    renderE extensions excludes (Entry.dir n cs) pfx =
      generate_tree extensions excludes n cs pfx := by
  simp only [renderE, generate_tree, h, Bool.false_eq_true, if_false]

/-- Forget the `EntryList` packaging. -/
def toListE : EntryList → List Entry
  | EntryList.nil => []
  | EntryList.cons e rest => e :: toListE rest

theorem renderL_eq_map (extensions excludes : List String) :
    ∀ l, renderL extensions excludes l =
      (toListE l).map (fun e => (e, renderE extensions excludes e))
  | EntryList.nil => rfl
  | EntryList.cons e rest => by
      simp only [renderL, toListE, List.map_cons]
      rw [renderL_eq_map extensions excludes rest]

theorem pyInsert_map {α β : Type u} (F : α → β) (le : α → α → Bool)
    (le' : β → β → Bool) (hcomm : ∀ a b, le' (F a) (F b) = le a b) (x : α) :
    ∀ l : List α, pyInsert le' (F x) (l.map F) = (pyInsert le x l).map F
  | [] => rfl
  | y :: ys => by
      simp only [List.map_cons, pyInsert, hcomm x y]
      by_cases h : le x y = true
      · rw [if_pos h, if_pos h, List.map_cons, List.map_cons]
      · rw [Bool.not_eq_true] at h
        rw [h]
        simp only [Bool.false_eq_true, if_false, List.map_cons]
        rw [pyInsert_map F le le' hcomm x ys]

theorem pySort_map {α β : Type u} (F : α → β) (le : α → α → Bool)
    (le' : β → β → Bool) (hcomm : ∀ a b, le' (F a) (F b) = le a b) :
    ∀ l : List α, pySort le' (l.map F) = (pySort le l).map F
  | [] => rfl
  | x :: xs => by
      simp only [List.map_cons, pySort]
      rw [pySort_map F le le' hcomm xs, pyInsert_map F le le' hcomm x (pySort le xs)]

theorem filter_map_comm {α β : Type u} (F : α → β) (p : β → Bool) :
    ∀ l : List α, (l.map F).filter p = (l.filter (fun a => p (F a))).map F
  | [] => rfl
  | x :: xs => by
      simp only [List.map_cons, List.filter_cons]
      by_cases h : p (F x) = true
      · rw [if_pos h, if_pos h, List.map_cons, filter_map_comm F p xs]
      · rw [Bool.not_eq_true] at h
        rw [h]
        simp only [Bool.false_eq_true, if_false]
        exact filter_map_comm F p xs

theorem markLast_map {α β : Type u} (F : α → β) :
    ∀ l : List α, markLast (l.map F) = (markLast l).map (fun ab => (F ab.1, ab.2))
  | [] => rfl
  | [x] => rfl
  | x :: y :: rest => by
      simp only [List.map_cons, markLast]
      exact congrArg (List.cons (F x, false)) (markLast_map F (y :: rest))

theorem append_ne_empty (s t : String) (h : t.data ≠ []) : ((s ++ t) == "") = false := by
  rw [beq_eq_false_iff_ne]
  intro hEq
  have hdata : s.data ++ t.data = [] := by
    rw [show s.data ++ t.data = (s ++ t).data from rfl, hEq]
  exact h (List.append_eq_nil.mp hdata).2

/-- The restructured renderer satisfies the source's recursion equation
verbatim (code2md.py lines 283-318): sort the children (directories first,
case-insensitive names), filter by the exclusion matcher (against the base
given by `base_path.parent if prefix else base_path`) and the extension set,
then emit a line per kept child, a directory child guarded by
`has_relevant` and followed by a recursive `generate_tree` call under the
extended indentation prefix. -/
theorem generate_tree_eq (extensions excludes : List String) (curName : String)
    (children : EntryList) (pfx : String) :
    generate_tree extensions excludes curName children pfx =
      ((markLast ((pySort treeLe (toListE children)).filter (fun item =>
          !should_exclude ((if pfx == "" then [] else [curName]) ++ [entryName item])
            (entryName item) excludes &&
          !(!entryIsDir item &&
            !extensions.contains (lowerStr (pySuffix (entryName item))))))).map
        (fun it =>
          match it with
          | (Entry.file n, isLast) =>
              [pfx ++ (if isLast then "└── " else "├── ") ++ n]
          | (Entry.dir n cs, isLast) =>
              if has_relevant extensions excludes
                  (if pfx == "" then [] else [curName]) (Entry.dir n cs) then
                (pfx ++ (if isLast then "└── " else "├── ") ++ n ++ "/") ::
                generate_tree extensions excludes n cs
                  (pfx ++ (if isLast then "    " else "│   "))
              else [])).flatten := by
  show assembleLevel extensions excludes (if pfx == "" then [] else [curName]) pfx
      (renderL extensions excludes children) = _
  unfold assembleLevel
  rw [renderL_eq_map,
    pySort_map (fun e => (e, renderE extensions excludes e)) treeLe
      (fun a b => treeLe a.1 b.1) (fun _ _ => rfl),
    filter_map_comm, markLast_map, List.map_map]
  dsimp only
  refine congrArg List.flatten (List.map_congr_left ?_)
  intro ab _
  obtain ⟨item, isLast⟩ := ab
  cases item with
  | file n => rfl
  | dir n cs =>
      show renderItem extensions excludes (if pfx == "" then [] else [curName]) pfx
          ((Entry.dir n cs, renderE extensions excludes (Entry.dir n cs)), isLast) = _
      simp only [renderItem]
      by_cases hrel : has_relevant extensions excludes
          (if pfx == "" then [] else [curName]) (Entry.dir n cs) = true
      · simp only [hrel, if_true]
        rw [renderE_dir extensions excludes n cs _
          (append_ne_empty pfx (if isLast then "    " else "│   ")
            (by cases isLast <;> decide))]
      · rw [Bool.not_eq_true] at hrel
        rw [hrel]
        simp only [Bool.false_eq_true, if_false]

/-- A well-formed filesystem name: nonempty and free of the separator. -/
def nameOk (n : String) : Bool := decide (n.data ≠ [] ∧ '/' ∉ n.data)

mutual
/-- All names in the subtree are well-formed filesystem names. -/
def namesOkE : Entry → Bool
  | Entry.file n => nameOk n
  | Entry.dir n cs => nameOk n && namesOkL cs

/-- All names in a listing's subtrees are well-formed filesystem names. -/
def namesOkL : EntryList → Bool
  | EntryList.nil => true
  | EntryList.cons e rest => namesOkE e && namesOkL rest
end

theorem nameOk_of_namesOkE (e : Entry) (h : namesOkE e = true) :
    nameOk (entryName e) = true := by
  cases e with
  | file n => simpa [namesOkE, entryName] using h
  | dir n cs =>
      rw [namesOkE, Bool.and_eq_true] at h
      simpa [entryName] using h.1

theorem markLast_mem_fst {α : Type u} : ∀ (l : List α) (x : α) (b : Bool),
    (x, b) ∈ markLast l → x ∈ l
  | [], x, b, h => by simp [markLast] at h
  | [y], x, b, h => by
      simp only [markLast, List.mem_singleton, Prod.mk.injEq] at h
      rw [h.1]
      exact List.mem_singleton_self y
  | y :: z :: rest, x, b, h => by
      simp only [markLast] at h
      rcases List.mem_cons.mp h with h | h
      · rw [Prod.mk.injEq] at h
        rw [h.1]
        exact List.mem_cons_self y (z :: rest)
      · exact List.mem_cons_of_mem y (markLast_mem_fst (z :: rest) x b h)

theorem not_endsWith_slash_of_nameOk (s n : String) (hn : nameOk n = true) :
    strEndsWith (s ++ n) "/" = false := by
  rcases of_decide_eq_true hn with ⟨hne, hnotin⟩
  rw [strEndsWith]
  have hdata : (s ++ n).data = s.data ++ n.data := rfl
  rw [hdata, List.reverse_append]
  cases hrev : n.data.reverse with
  | nil => exact absurd (by simpa using congrArg List.reverse hrev) hne
  | cons c t =>
      have hc : c ∈ n.data := by
        have : c ∈ n.data.reverse := by rw [hrev]; exact List.mem_cons_self c t
        exact List.mem_reverse.mp this
      have hcne : (c == '/') = false := by
        rw [beq_eq_false_iff_ne]
        intro hEq
        rw [hEq] at hc
        exact hnotin hc
      show listStartsWith (c :: (t ++ s.data.reverse)) ("/".data.reverse) = false
      rw [show ("/".data.reverse) = ['/'] from rfl, listStartsWith, hcne]
      rfl

/-- Provenance of a directory line: it was emitted under a true
`has_relevant` guard for some directory at some exclusion base. -/
def Prov (extensions excludes : List String) (line : String) : Prop :=
  ∃ relBase n cs, has_relevant extensions excludes relBase (Entry.dir n cs) = true ∧
    ∃ (pfx2 : String) (isLast : Bool),
      line = pfx2 ++ (if isLast then "└── " else "├── ") ++ n ++ "/"

theorem assembleLevel_prov (extensions excludes : List String) (relBase : List String)
    (pfx : String) (pairs : List (Entry × (String → List String)))
    (hgood : ∀ it ∈ pairs, nameOk (entryName it.1) = true ∧
      ∀ pfx2 line, line ∈ it.2 pfx2 → strEndsWith line "/" = true →
        Prov extensions excludes line) :
    ∀ line ∈ assembleLevel extensions excludes relBase pfx pairs,
      strEndsWith line "/" = true → Prov extensions excludes line := by
  intro line hline hslash
  unfold assembleLevel at hline
  rw [List.mem_flatten] at hline
  rcases hline with ⟨lns, hlns, hline⟩
  rw [List.mem_map] at hlns
  rcases hlns with ⟨marked, hmarked, rfl⟩
  obtain ⟨⟨item, sub⟩, isLast⟩ := marked
  have hmem : (item, sub) ∈ pairs := by
    have h1 := markLast_mem_fst _ _ _ hmarked
    have h2 := (List.mem_filter.mp h1).1
    exact (mem_pySort _ _ _).mp h2
  rcases hgood (item, sub) hmem with ⟨hnm, hsub⟩
  cases item with
  | file n =>
      simp only [renderItem, List.mem_singleton] at hline
      subst hline
      rw [not_endsWith_slash_of_nameOk _ n (by simpa [entryName] using hnm)] at hslash
      exact absurd hslash Bool.false_ne_true
  | dir n cs =>
      simp only [renderItem] at hline
      by_cases hrel : has_relevant extensions excludes relBase (Entry.dir n cs) = true
      · rw [if_pos hrel] at hline
        rcases List.mem_cons.mp hline with rfl | hline
        · exact ⟨relBase, n, cs, hrel, pfx, isLast, rfl⟩
        · exact hsub _ line hline hslash
      · rw [Bool.not_eq_true] at hrel
        rw [hrel] at hline
        simp at hline

/-- The failing input shared by the exclusion-base defect: a file nested
three directories deep plus keeper files, with the single exclude pattern
`d1/d2/d3` matching the deep directory's base-relative path as a substring. -/
def cxEntries : EntryList :=
  ofList [Entry.dir "d1" (ofList
    [Entry.file "keep.py",
     Entry.dir "d2" (ofList
       [Entry.file "keep2.py",
        Entry.dir "d3" (ofList [Entry.file "f.py"])])])]

/-- claim C1 (violated by the code): at the failing input the two traversals
disagree. `collect_files` prunes the subtree `d1/d2/d3` (its base-relative
path contains the pattern as a substring), while the tree renderer, whose
recursive calls rebase relative paths onto the current directory's parent,
reaches `d3` with relative path `d2/d3`, misses the pattern, and renders the
leaf `f.py` that the collector never returns. -/
theorem claim_C1 :
    collect_files [".py"] ["d1/d2/d3"] cxEntries =
      [["d1", "d2", "keep2.py"], ["d1", "keep.py"]] ∧
    generate_tree [".py"] ["d1/d2/d3"] "base" cxEntries "" =
      ["└── d1/", "    ├── d2/", "    │   ├── d3/", "    │   │   └── f.py",
       "    │   └── keep2.py", "    └── keep.py"] ∧
    ["d1", "d2", "d3", "f.py"] ∉
      collect_files [".py"] ["d1/d2/d3"] cxEntries := by decide

/-- claim C2 (violated by the code): relative to the original top-level base
the directory `d1/d2/d3` is excluded, but `generate_tree` at recursion depth
two evaluates the entry `d3` against the parent of the current directory,
where the relative path is only `d2/d3`, the pattern misses, and the
directory is rendered: exclusion is not computed against the very first
call's base at every depth. -/
theorem claim_C2 :
    should_exclude ["d1", "d2", "d3"] "d3" ["d1/d2/d3"] = true ∧
    should_exclude ["d2", "d3"] "d3" ["d1/d2/d3"] = false ∧
    "    │   ├── d3/" ∈ generate_tree [".py"] ["d1/d2/d3"] "base" cxEntries "" := by decide

/-- counterexample to claim C3: the line for directory `d3` appears in the
rendering although every transitive descendant file of `d3` (here only
`d1/d2/d3/f.py`) is excluded by the predicate evaluated against the original
base, so "a directory line appears only if some descendant survives the
predicate" fails when the predicate is taken relative to the base. -/
theorem claim_C3_cx :
    "    │   ├── d3/" ∈ generate_tree [".py"] ["d1/d2/d3"] "base" cxEntries "" ∧
    ∀ p ∈ descFilesE (Entry.dir "d3" (ofList [Entry.file "f.py"])),
      should_exclude (["d1", "d2"] ++ p) (p.getLastD "") ["d1/d2/d3"] = true := by decide

/-- claim C3 (amended): over well-formed names, every directory line of the
rendering (the lines ending in the separator) was emitted under a true
`has_relevant` guard, i.e. some transitive descendant file survives the
exclusion/extension predicate evaluated at the exclusion base of the
recursion level that emitted the line; and a directory child whose
`has_relevant` check fails contributes no line at all. -/
theorem claim_C3 (extensions excludes : List String) (curName : String)
    (children : EntryList) (pfx : String) (hn : namesOkL children = true) :
    (∀ line ∈ generate_tree extensions excludes curName children pfx,
       strEndsWith line "/" = true → Prov extensions excludes line) ∧
    (∀ relBase2 pfx2 (n : String) (cs : EntryList) (sub : String → List String)
       (isLast : Bool),
       has_relevant extensions excludes relBase2 (Entry.dir n cs) = false →
       renderItem extensions excludes relBase2 pfx2 ((Entry.dir n cs, sub), isLast) = []) := by
  constructor
  · have main : ∀ l, namesOkL l = true →
        ∀ it ∈ renderL extensions excludes l,
          nameOk (entryName it.1) = true ∧
          ∀ pfx2 line, line ∈ it.2 pfx2 → strEndsWith line "/" = true →
            Prov extensions excludes line := by
      refine entryListInd
        (fun e => namesOkE e = true → ∀ pfx2 line,
          line ∈ renderE extensions excludes e pfx2 →
          strEndsWith line "/" = true → Prov extensions excludes line)
        (fun l => namesOkL l = true → ∀ it ∈ renderL extensions excludes l,
          nameOk (entryName it.1) = true ∧ ∀ pfx2 line, line ∈ it.2 pfx2 →
            strEndsWith line "/" = true → Prov extensions excludes line)
        ?_ ?_ ?_ ?_
      · intro n _ pfx2 line hline _
        simp [renderE] at hline
      · intro n cs ih hne pfx2 line hline hsl
        simp only [renderE] at hline
        have hcs : namesOkL cs = true := by
          rw [namesOkE, Bool.and_eq_true] at hne
          exact hne.2
        exact assembleLevel_prov extensions excludes [n] pfx2 _ (ih hcs) line hline hsl
      · intro _ it hit
        simp [renderL] at hit
      · intro e rest ihP ihQ hall it hit
        simp only [renderL] at hit
        rcases List.mem_cons.mp hit with rfl | hit
        · have hne : namesOkE e = true := by
            rw [namesOkL, Bool.and_eq_true] at hall
            exact hall.1
          exact ⟨nameOk_of_namesOkE e hne, fun pfx2 line hl hs => ihP hne pfx2 line hl hs⟩
        · have hrest : namesOkL rest = true := by
            rw [namesOkL, Bool.and_eq_true] at hall
            exact hall.2
          exact ihQ hrest it hit
    intro line hline hsl
    unfold generate_tree at hline
    exact assembleLevel_prov extensions excludes _ pfx _ (main children hn) line hline hsl
  · intro relBase2 pfx2 n cs sub isLast hrel
    simp only [renderItem]
    rw [hrel]
    simp

/-- witness for claim C3: on a one-directory tree the rendered line `└── d/`
is justified by a surviving descendant. -/
theorem claim_C3_witness :
    namesOkL (ofList [Entry.dir "d" (ofList [Entry.file "a.py"])]) = true ∧
    Prov [".py"] [] "└── d/" :=
  ⟨by decide,
   (claim_C3 [".py"] [] "base" (ofList [Entry.dir "d" (ofList [Entry.file "a.py"])]) ""
     (by decide)).1 "└── d/" (by decide) (by decide)⟩

/-- Python `s.replace(old, new)` for a single-character `old`, as used in the
anchor computation of `generate_markdown` (code2md.py line 360). -/
def pyReplaceChar (c : Char) (r : String) (s : String) : String :=
  ⟨(s.data.map fun a => if a == c then r.data else [a]).flatten⟩

/-- The table-of-contents anchor of one file (code2md.py line 360):
`str(rel_path).replace("/", "").replace("\\", "").replace(".", "")
.replace("_", "-").lower()` applied to the relative path string. -/
def anchorOf (relStr : String) : String :=
  lowerStr (pyReplaceChar '_' "-" (pyReplaceChar '.' ""
    (pyReplaceChar '\\' "" (pyReplaceChar '/' "" relStr))))

/-- Modelled from the spec for comparison with the code (claim C5): the
anchor obtained by removing path separators, dots and underscores and then
lower-casing. -/
def anchorSpec (relStr : String) : String :=
  lowerStr (pyReplaceChar '_' "" (pyReplaceChar '.' ""
    (pyReplaceChar '\\' "" (pyReplaceChar '/' "" relStr))))

/-- counterexample to claim C5: the code replaces underscores with hyphens
instead of removing them, so on `a_b.py` the generated anchor `a-bpy`
differs from the spec's `abpy`. -/
theorem claim_C5_cx :
    anchorOf "a_b.py" = "a-bpy" ∧ anchorSpec "a_b.py" = "abpy" ∧
    anchorOf "a_b.py" ≠ anchorSpec "a_b.py" := by decide

/-- Character-list form of one single-character replacement pass. -/
def repl (c : Char) (r : List Char) (l : List Char) : List Char :=
  (l.map fun a => if a == c then r else [a]).flatten

theorem repl_nil (c : Char) (r : List Char) : repl c r [] = [] := rfl

theorem repl_cons (c : Char) (r : List Char) (a : Char) (l : List Char) :
    repl c r (a :: l) = (if a == c then r else [a]) ++ repl c r l := rfl

theorem repl_append (c : Char) (r : List Char) (x y : List Char) :
    repl c r (x ++ y) = repl c r x ++ repl c r y := by
  unfold repl
  rw [List.map_append, List.flatten_append]

theorem repl_singleton (c : Char) (r : List Char) (a : Char) :
    repl c r [a] = if a == c then r else [a] := by
  rw [repl_cons, repl_nil, List.append_nil]

theorem anchor_head (a : Char) :
    (repl '_' ['-'] (repl '.' [] (repl '\\' []
        (if a == '/' then [] else [a])))).map lowerChar =
      (if a = '/' ∨ a = '\\' ∨ a = '.' then []
       else if a = '_' then ['-'] else [lowerChar a]) := by
  by_cases h1 : a = '/'
  · subst h1
    decide
  · by_cases h2 : a = '\\'
    · subst h2
      decide
    · by_cases h3 : a = '.'
      · subst h3
        decide
      · by_cases h4 : a = '_'
        · subst h4
          decide
        · have b1 : (a == '/') = false := beq_eq_false_iff_ne.mpr h1
          have b2 : (a == '\\') = false := beq_eq_false_iff_ne.mpr h2
          have b3 : (a == '.') = false := beq_eq_false_iff_ne.mpr h3
          have b4 : (a == '_') = false := beq_eq_false_iff_ne.mpr h4
          rw [b1]
          simp only [Bool.false_eq_true, if_false]
          rw [repl_singleton, b2]
          simp only [Bool.false_eq_true, if_false]
          rw [repl_singleton, b3]
          simp only [Bool.false_eq_true, if_false]
          rw [repl_singleton, b4]
          simp only [Bool.false_eq_true, if_false]
          rw [if_neg (by tauto), if_neg h4]
          rfl

theorem anchorChars : ∀ L : List Char,
    (repl '_' ['-'] (repl '.' [] (repl '\\' [] (repl '/' [] L)))).map lowerChar =
      (L.map fun ch =>
        if ch = '/' ∨ ch = '\\' ∨ ch = '.' then []
        else if ch = '_' then ['-'] else [lowerChar ch]).flatten
  | [] => rfl
  | a :: L => by
      rw [repl_cons, repl_append, repl_append, repl_append, List.map_append,
        List.map_cons, List.flatten_cons, anchorChars L]
      rw [anchor_head a]

/-- claim C5 (amended): the table-of-contents anchor equals the relative path
string transformed character by character: path separators (both kinds) and
dots are removed, underscores are replaced by hyphens, and every remaining
character is lower-cased. -/
theorem claim_C5 (relStr : String) :
    (anchorOf relStr).data =
      (relStr.data.map fun ch =>
        if ch = '/' ∨ ch = '\\' ∨ ch = '.' then []
        else if ch = '_' then ['-'] else [lowerChar ch]).flatten :=
  anchorChars relStr.data

/-- The static `SYNTAX_MAP` table of code2md.py (lines 146-197), mapping
lower-cased file suffixes to syntax-highlighting tags. -/
def langMap : List (String × String) :=
  [(".py", "python"), (".pyi", "python"), (".pyw", "python"),
   (".js", "javascript"), (".mjs", "javascript"), (".cjs", "javascript"),
   (".ts", "typescript"), (".jsx", "jsx"), (".tsx", "tsx"), (".vue", "vue"),
   (".html", "html"), (".htm", "html"), (".css", "css"), (".scss", "scss"),
   (".sass", "sass"), (".less", "less"), (".json", "json"), (".yaml", "yaml"),
   (".yml", "yaml"), (".toml", "toml"), (".xml", "xml"), (".md", "markdown"),
   (".rst", "rst"), (".php", "php"), (".phtml", "php"), (".c", "c"),
   (".h", "c"), (".cpp", "cpp"), (".hpp", "cpp"), (".ino", "cpp"),
   (".rs", "rust"), (".go", "go"), (".dart", "dart"), (".java", "java"),
   (".kt", "kotlin"), (".cs", "csharp"), (".rb", "ruby"), (".sh", "bash"),
   (".bash", "bash"), (".zsh", "zsh"), (".fish", "fish"),
   (".ps1", "powershell"), (".sql", "sql"), (".graphql", "graphql"),
   (".dockerfile", "dockerfile"), (".ini", "ini"), (".cfg", "ini"),
   (".conf", "ini"), (".env", "dotenv"), (".gitignore", "gitignore")]

/-- Python `SYNTAX_MAP.get(suffix, "")`. -/
def langMapGet (suffix : String) : String :=
  match langMap.find? (fun kv => kv.1 == suffix) with
  | some kv => kv.2
  | none => ""

/-- `get_syntax_for_file(filepath)` (code2md.py lines 204-219): special cases
for well-known extensionless names and dotfiles, then the static suffix
table with empty-tag fallback. -/
def get_lang_for_file (fileName : String) : String :=
  let suffix := lowerStr (pySuffix fileName)
  let nm := lowerStr fileName
  if nm == "dockerfile" then "dockerfile"
  else if nm == "makefile" then "makefile"
  else if strStartsWith nm ".env" then "dotenv"
  else if nm == ".gitignore" then "gitignore"
  else langMapGet suffix

theorem walkFiles_ext (extensions excludes : List String) :
    ∀ l, ∀ pre p, p ∈ walkFiles extensions excludes pre l →
      extensions.contains (lowerStr (pySuffix (p.getLastD ""))) = true := by
  refine elInd (fun l => ∀ pre p, p ∈ walkFiles extensions excludes pre l →
    extensions.contains (lowerStr (pySuffix (p.getLastD ""))) = true) ?_ ?_
  · intro pre p hp
    simp [walkFiles] at hp
  · intro e rest ih pre p hp
    cases e with
    | file n =>
        simp only [walkFiles] at hp
        rcases List.mem_append.mp hp with hp | hp
        · by_cases h1 : should_exclude (pre ++ [n]) n excludes = true
          · rw [if_pos h1] at hp
            simp at hp
          · rw [Bool.not_eq_true] at h1
            rw [h1] at hp
            simp only [Bool.false_eq_true, if_false] at hp
            by_cases h2 : extensions.contains (lowerStr (pySuffix n)) = true
            · rw [if_pos h2, List.mem_singleton] at hp
              subst hp
              rw [show (pre ++ [n]).getLastD "" = n by simp]
              exact h2
            · rw [Bool.not_eq_true] at h2
              rw [h2] at hp
              simp at hp
        · exact ih pre p hp
    | dir n cs =>
        simp only [walkFiles] at hp
        exact ih pre p hp

theorem walkSub_ext (extensions excludes : List String) :
    ∀ l pre p, p ∈ walkSub extensions excludes pre l →
      extensions.contains (lowerStr (pySuffix (p.getLastD ""))) = true := by
  refine entryListInd
    (fun e => ∀ pre p, p ∈ walkDirE extensions excludes pre e →
      extensions.contains (lowerStr (pySuffix (p.getLastD ""))) = true)
    (fun l => ∀ pre p, p ∈ walkSub extensions excludes pre l →
      extensions.contains (lowerStr (pySuffix (p.getLastD ""))) = true) ?_ ?_ ?_ ?_
  · intro n pre p hp
    simp [walkDirE] at hp
  · intro n cs ih pre p hp
    simp only [walkDirE] at hp
    by_cases h1 : should_exclude (pre ++ [n]) n excludes = true
    · rw [if_pos h1] at hp
      simp at hp
    · rw [Bool.not_eq_true] at h1
      rw [h1] at hp
      simp only [Bool.false_eq_true, if_false] at hp
      rcases List.mem_append.mp hp with hp | hp
      · exact walkFiles_ext extensions excludes cs (pre ++ [n]) p hp
      · exact ih (pre ++ [n]) p hp
  · intro pre p hp
    simp [walkSub] at hp
  · intro e rest ihP ihQ pre p hp
    simp only [walkSub] at hp
    rcases List.mem_append.mp hp with hp | hp
    · exact ihP pre p hp
    · exact ihQ pre p hp

theorem mem_of_containsStr {l : List String} {s : String} (h : l.contains s = true) :
    s ∈ l := by
  simpa using h

/-- claim C10: when every extension is a dot-prefixed string (as the CLI
guarantees by prepending a dot), `collect_files` never returns a file whose
Python suffix is empty; yet exactly the well-known extensionless names
(`Dockerfile`, `Makefile`, `.gitignore`, `.env`) have empty suffix and carry
dedicated tags in the syntax lookup, so they can never appear in the
document. -/
theorem claim_C10 (extensions : List String)
    (hext : ∀ e ∈ extensions, strStartsWith e "." = true)
    (excludes : List String) (entries : EntryList) :
    (∀ p ∈ collect_files extensions excludes entries, pySuffix (p.getLastD "") ≠ "") ∧
    pySuffix "Dockerfile" = "" ∧ pySuffix "Makefile" = "" ∧
    pySuffix ".gitignore" = "" ∧ pySuffix ".env" = "" ∧
    get_lang_for_file "Dockerfile" = "dockerfile" ∧
    get_lang_for_file "Makefile" = "makefile" ∧
    get_lang_for_file ".gitignore" = "gitignore" ∧
    get_lang_for_file ".env" = "dotenv" := by
  refine ⟨?_, by decide, by decide, by decide, by decide, by decide, by decide,
    by decide, by decide⟩
  intro p hp
  unfold collect_files at hp
  rw [mem_pySort] at hp
  have hc : extensions.contains (lowerStr (pySuffix (p.getLastD ""))) = true := by
    rcases List.mem_append.mp hp with hp | hp
    · exact walkFiles_ext extensions excludes entries [] p hp
    · exact walkSub_ext extensions excludes entries [] p hp
  intro hemp
  rw [hemp] at hc
  have h0 : ("" : String) ∈ extensions := by
    have : lowerStr "" = "" := rfl
    rw [this] at hc
    exact mem_of_containsStr hc
  exact absurd (hext "" h0) (by decide)

/-- witness for claim C10: with extension set `{.py}`, an extensionless file
never appears and every collected file has a nonempty suffix. -/
theorem claim_C10_witness :
    (∀ e ∈ ([".py"] : List String), strStartsWith e "." = true) ∧
    (∀ p ∈ collect_files [".py"] []
        (ofList [Entry.file "Dockerfile", Entry.file "a.py"]),
      pySuffix (p.getLastD "") ≠ "") :=
  ⟨by decide,
   (claim_C10 [".py"] (by decide) []
     (ofList [Entry.file "Dockerfile", Entry.file "a.py"])).1⟩

end Code2md
